import Mathlib

/-!
Shallow embedding of the shipping-monitor dashboard's logic
(deployment/prediction.py and deployment/eda.py).

Numeric dataset values are embedded as rationals (`ℚ`): the Python code
works on integer-valued pandas columns and the only fractional value that
ever arises is the median of an even-length column, which is exact in `ℚ`.
Python's `int(...)` truncation toward zero is `pyInt`; the `"%.0f"` format
rounds half to even, embedded as `roundHalfEven`.  Streamlit rendering is
pure display and is not part of the embedding; the functions below keep the
data flow of the source (record building, label mapping, probability
extraction, range derivation, binning, artifact resolution).
-/

/-- Column order contract from prediction.py (`FEATURE_ORDER`). -/
def FEATURE_ORDER : List String :=
  ["Customer_care_calls", "Cost_of_the_Product", "Prior_purchases",
   "Discount_offered", "Weight_in_gms", "Product_importance"]

/-- Local artifact path from prediction.py (`LOCAL_MODEL_PATH`). -/
def LOCAL_MODEL_PATH : String := "deployment/best_model_pipeline.joblib"

/-- Remote repository id from prediction.py (`MODEL_REPO_ID`). -/
def MODEL_REPO_ID : String := "vorddd/shipping-delay-knn-v1"

/-- Remote filename from prediction.py (`MODEL_FILENAME`). -/
def MODEL_FILENAME : String := "best_model_pipeline.joblib"

/-- A cell of the single-row prediction record: the five slider inputs are
integers, the selectbox input is a string. -/
inductive FeatureValue where
  | intV (n : ℤ)
  | strV (s : String)
deriving DecidableEq

/-- A single-row pandas DataFrame: named columns plus the one row. -/
structure PredictionRecord where
  columns : List String
  row : List FeatureValue
deriving DecidableEq

/-- Embedding of `pd.DataFrame([[...]], columns=FEATURE_ORDER)` built in
`model_page` from the six submitted inputs (prediction.py lines 137-147). -/
def buildFeatures (customer_care_calls cost_of_product prior_purchases
    discount_offered weight_in_gms : ℤ) (product_importance : String) :
    PredictionRecord :=
  { columns := FEATURE_ORDER,
    row := [FeatureValue.intV customer_care_calls,
            FeatureValue.intV cost_of_product,
            FeatureValue.intV prior_purchases,
            FeatureValue.intV discount_offered,
            FeatureValue.intV weight_in_gms,
            FeatureValue.strV product_importance] }

/-- Embedding of `is_on_time = prediction_raw == 1` (prediction.py line 151). -/
def is_on_time (prediction_raw : ℚ) : Bool := prediction_raw == 1

/-- The label the view reports: `st.success` (on-time) when `is_on_time`,
`st.error` (late) otherwise (prediction.py lines 164-167). -/
def shipmentLabel (prediction_raw : ℚ) : String :=
  if is_on_time prediction_raw then "on-time" else "late"

/-- The loaded estimator: `predict` always exists; `predict_proba` is the
optional probability capability (`hasattr(model, "predict_proba")`), giving
the two-class vector (index 0, index 1). -/
structure Model where
  predict : PredictionRecord → ℚ
  predict_proba : Option (PredictionRecord → ℚ × ℚ)

/-- Embedding of prediction.py lines 154-160: both probabilities start as
`None`; only when the capability is present are they set to element 0
(late) and element 1 (on-time) of the probability vector.  The result pair
is (late_prob, on_time_prob). -/
def extractProbs (model : Model) (features : PredictionRecord) :
    Option ℚ × Option ℚ :=
  match model.predict_proba with
  | none => (none, none)
  | some proba => (some (proba features).1, some (proba features).2)

/-- Embedding of `load_model` (prediction.py lines 27-46): the boolean is
`LOCAL_MODEL_PATH.exists()`, the `Except` argument is the outcome of the
one `hf_hub_download` call.  The result carries the resolved path (or the
propagated download failure) together with how many remote fetches were
attempted. -/
def load_model (local_exists : Bool) (hub_download : Except String String) :
    Except String String × ℕ :=
  if local_exists then (Except.ok LOCAL_MODEL_PATH, 0)
  else (hub_download, 1)

/-- Pandas `series.min()` on the embedded column. -/
def seriesMin? : List ℚ → Option ℚ
  | [] => none
  | x :: xs => some (xs.foldl min x)

/-- Pandas `series.max()` on the embedded column. -/
def seriesMax? : List ℚ → Option ℚ
  | [] => none
  | x :: xs => some (xs.foldl max x)

/-- Pandas `series.median()`: sort, take the middle element (odd length) or
the mean of the two middle elements (even length).  The sorted list of a
column is unique (the order on `ℚ` is linear), so any sort embeds
`numpy`'s. -/
def seriesMedian? (xs : List ℚ) : Option ℚ :=
  let s := xs.insertionSort (· ≤ ·)
  let k := xs.length
  if k % 2 = 1 then s[k / 2]?
  else
    match s[k / 2 - 1]?, s[k / 2]? with
    | some a, some b => some ((a + b) / 2)
    | _, _ => none

/-- Python `int(...)` on an exact rational: truncation toward zero. -/
def pyInt (q : ℚ) : ℤ := if 0 ≤ q then ⌊q⌋ else ⌈q⌉

/-- The loop body of `_get_feature_ranges` (prediction.py lines 49-59) for
one numeric column: `(int(series.min()), int(series.max()),
int(series.median()))`, or `none` where pandas would raise (empty column:
`int(nan)` raises). -/
def columnRange (series : List ℚ) : Option (ℤ × ℤ × ℤ) :=
  match seriesMin? series, seriesMax? series, seriesMedian? series with
  | some mn, some mx, some md => some (pyInt mn, pyInt mx, pyInt md)
  | _, _, _ => none

/-- The reference dataset columns that `model_page` reads: the five numeric
feature columns of `FEATURE_ORDER` plus the categorical one. -/
structure RefData where
  customer_care_calls : List ℚ
  cost_of_the_product : List ℚ
  prior_purchases : List ℚ
  discount_offered : List ℚ
  weight_in_gms : List ℚ
  product_importance : List String

/-- Embedding of `_get_feature_ranges` (prediction.py lines 49-59): one
`(min, max, median)` triple per numeric feature of `FEATURE_ORDER`
(the last entry, `Product_importance`, is categorical and skipped). -/
def get_feature_ranges (data : RefData) :
    Option (List (String × (ℤ × ℤ × ℤ))) :=
  match columnRange data.customer_care_calls,
        columnRange data.cost_of_the_product,
        columnRange data.prior_purchases,
        columnRange data.discount_offered,
        columnRange data.weight_in_gms with
  | some r1, some r2, some r3, some r4, some r5 =>
      some [("Customer_care_calls", r1), ("Cost_of_the_Product", r2),
            ("Prior_purchases", r3), ("Discount_offered", r4),
            ("Weight_in_gms", r5)]
  | _, _, _, _, _ => none

/-- Embedding of the configuration phase of `model_page` (prediction.py
lines 62-79): with no reference dataset it raises
`ValueError("reference_data is required to build sensible input ranges")`
before anything is computed; with one, it derives the slider ranges. -/
def model_page (reference_data : Option RefData) :
    Except String (List (String × (ℤ × ℤ × ℤ))) :=
  match reference_data with
  | none => Except.error "reference_data is required to build sensible input ranges"
  | some data =>
    match get_feature_ranges data with
    | some ranges => Except.ok ranges
    | none => Except.error "cannot convert float NaN to integer"

/-- Rounding of Python's `"%.0f"` format: half to even. -/
def roundHalfEven (q : ℚ) : ℤ :=
  let fl := ⌊q⌋
  let frac := q - fl
  if frac < 1 / 2 then fl
  else if 1 / 2 < frac then fl + 1
  else if fl % 2 = 0 then fl else fl + 1

/-- The `f"{x:.0f}"` label piece of `_make_numeric_bins`. -/
def fmtF0 (q : ℚ) : String := toString (roundHalfEven q)

/-- The `np.linspace(min_v, max_v, n_bins + 1)` grid point number `i`
(eda.py line 39). -/
def binEdge (min_v max_v : ℚ) (n_bins : ℕ) (i : ℕ) : ℚ :=
  min_v + i * (max_v - min_v) / n_bins

/-- The label list of `_make_numeric_bins` (eda.py line 40):
`f"{bins[i]:.0f}–{bins[i+1]:.0f}"` for each of the `n_bins` intervals. -/
def binLabels (min_v max_v : ℚ) (n_bins : ℕ) : List String :=
  (List.range n_bins).map (fun i =>
    fmtF0 (binEdge min_v max_v n_bins i) ++ "–" ++
      fmtF0 (binEdge min_v max_v n_bins (i + 1)))

/-- Membership of a value in interval `i` of `pd.cut(series, bins=bins,
labels=labels, include_lowest=True)`: interval 0 is closed
`[bins[0], bins[1]]` (include_lowest), interval `i ≥ 1` is left-open
`(bins[i], bins[i+1]]`. -/
def cutMem (min_v max_v : ℚ) (n_bins : ℕ) (i : ℕ) (v : ℚ) : Bool :=
  if i = 0 then
    decide (min_v ≤ v) && decide (v ≤ binEdge min_v max_v n_bins 1)
  else
    decide (binEdge min_v max_v n_bins i < v) &&
      decide (v ≤ binEdge min_v max_v n_bins (i + 1))

/-- The interval `pd.cut` assigns a value to, if any (`NaN` is `none`). -/
def binIndex? (min_v max_v : ℚ) (n_bins : ℕ) (v : ℚ) : Option ℕ :=
  (List.range n_bins).find? (fun i => cutMem min_v max_v n_bins i v)

/-- Result of `_make_numeric_bins`: the categories (bin labels) and, per
input element, the label it was assigned (`none` for pandas `NaN`). -/
structure BinResult where
  labels : List String
  assign : List (Option String)
deriving DecidableEq

/-- Embedding of `_make_numeric_bins` (eda.py lines 31-41).  Degenerate
branch (`min == max`): a single bin `(min - 1, max + 1]` labeled
`f"{min_v:.0f}"` (a bare `pd.cut` interval is left-open, right-closed).
General branch: the linspace bins with `include_lowest=True`; `pd.cut`
first checks the supplied labels and raises
`ValueError("labels must be unique if ordered=True")` when the rounded
labels collide, embedded as `none`.  `none` also for an empty series,
where `series.min()` is `NaN` and `pd.cut` raises. -/
def make_numeric_bins (series : List ℚ) (n_bins : ℕ) : Option BinResult :=
  match seriesMin? series, seriesMax? series with
  | some min_v, some max_v =>
    if min_v = max_v then
      some { labels := [fmtF0 min_v],
             assign := series.map (fun v =>
               if min_v - 1 < v ∧ v ≤ max_v + 1 then some (fmtF0 min_v)
               else none) }
    else
      if (binLabels min_v max_v n_bins).Nodup then
        some { labels := binLabels min_v max_v n_bins,
               assign := series.map (fun v =>
                 (binIndex? min_v max_v n_bins v).bind
                   (fun i => (binLabels min_v max_v n_bins)[i]?)) }
      else none
  | _, _ => none

/-- Concrete estimator exposing `predict_proba` with the vector
`[0.3, 0.7]`, used to instantiate the probability contract. -/
def probaModelW : Model :=
  { predict := fun _ => 1, predict_proba := some (fun _ => (3 / 10, 7 / 10)) }

/-- Concrete estimator without the `predict_proba` capability. -/
def classOnlyModelW : Model :=
  { predict := fun _ => 1, predict_proba := none }

/-- Concrete reference dataset whose numeric columns are all [1, 2, 4],
used to instantiate the feature-range contract. -/
def refDataW : RefData :=
  { customer_care_calls := [1, 2, 4], cost_of_the_product := [1, 2, 4],
    prior_purchases := [1, 2, 4], discount_offered := [1, 2, 4],
    weight_in_gms := [1, 2, 4],
    product_importance := ["low", "medium", "high"] }

/-- The feature ranges derived from `refDataW`: each column has minimum 1,
maximum 4, median 2. -/
def rangesW : List (String × (ℤ × ℤ × ℤ)) :=
  [("Customer_care_calls", (1, 4, 2)), ("Cost_of_the_Product", (1, 4, 2)),
   ("Prior_purchases", (1, 4, 2)), ("Discount_offered", (1, 4, 2)),
   ("Weight_in_gms", (1, 4, 2))]

/-- A lower bound for a pandas minimum: `series.min()` bounds every element
of the column from below. -/
theorem seriesMin?_le (xs : List ℚ) (mn : ℚ) (h : seriesMin? xs = some mn) :
    ∀ x ∈ xs, mn ≤ x := by
  have key : ∀ (ys : List ℚ) (a : ℚ),
      ys.foldl min a ≤ a ∧ ∀ x ∈ ys, ys.foldl min a ≤ x := by
    intro ys
    induction ys with
    | nil => simp
    | cons y ys ih =>
      intro a
      simp only [List.foldl_cons]
      obtain ⟨h1, h2⟩ := ih (min a y)
      refine ⟨le_trans h1 (min_le_left a y), ?_⟩
      intro x hx
      rcases List.mem_cons.mp hx with rfl | hx
      · exact le_trans h1 (min_le_right a x)
      · exact h2 x hx
  match xs, h with
  | y :: ys, h =>
    simp only [seriesMin?, Option.some.injEq] at h
    subst h
    intro x hx
    rcases List.mem_cons.mp hx with rfl | hx
    · exact (key ys x).1
    · exact (key ys y).2 x hx

/-- An upper bound for a pandas maximum: `series.max()` bounds every
element of the column from above. -/
theorem le_seriesMax? (xs : List ℚ) (mx : ℚ) (h : seriesMax? xs = some mx) :
    ∀ x ∈ xs, x ≤ mx := by
  have key : ∀ (ys : List ℚ) (a : ℚ),
      a ≤ ys.foldl max a ∧ ∀ x ∈ ys, x ≤ ys.foldl max a := by
    intro ys
    induction ys with
    | nil => simp
    | cons y ys ih =>
      intro a
      simp only [List.foldl_cons]
      obtain ⟨h1, h2⟩ := ih (max a y)
      refine ⟨le_trans (le_max_left a y) h1, ?_⟩
      intro x hx
      rcases List.mem_cons.mp hx with rfl | hx
      · exact le_trans (le_max_right a x) h1
      · exact h2 x hx
  match xs, h with
  | y :: ys, h =>
    simp only [seriesMax?, Option.some.injEq] at h
    subst h
    intro x hx
    rcases List.mem_cons.mp hx with rfl | hx
    · exact (key ys x).1
    · exact (key ys y).2 x hx

/-- The pandas median lies between the column's minimum and maximum. -/
theorem seriesMedian?_between (xs : List ℚ) (mn mx md : ℚ)
    (hmn : seriesMin? xs = some mn) (hmx : seriesMax? xs = some mx)
    (hmd : seriesMedian? xs = some md) : mn ≤ md ∧ md ≤ mx := by
  have hmem : ∀ a : ℚ, a ∈ xs.insertionSort (· ≤ ·) →
      mn ≤ a ∧ a ≤ mx := by
    intro a ha
    have hx : a ∈ xs := (List.mem_insertionSort _).mp ha
    exact ⟨seriesMin?_le xs mn hmn a hx, le_seriesMax? xs mx hmx a hx⟩
  simp only [seriesMedian?] at hmd
  by_cases hpar : xs.length % 2 = 1
  · rw [if_pos hpar] at hmd
    have : md ∈ xs.insertionSort (· ≤ ·) :=
      List.getElem?_mem hmd
    exact hmem md this
  · rw [if_neg hpar] at hmd
    rcases h1 : (xs.insertionSort (· ≤ ·))[xs.length / 2 - 1]? with _ | a
    · rw [h1] at hmd
      exact absurd hmd (by simp)
    rcases h2 : (xs.insertionSort (· ≤ ·))[xs.length / 2]? with _ | b
    · rw [h1, h2] at hmd
      exact absurd hmd (by simp)
    rw [h1, h2] at hmd
    simp only [Option.some.injEq] at hmd
    subst hmd
    obtain ⟨ha1, ha2⟩ := hmem a (List.getElem?_mem h1)
    obtain ⟨hb1, hb2⟩ := hmem b (List.getElem?_mem h2)
    constructor <;> linarith

/-- Truncation toward zero is monotone. -/
theorem pyInt_mono {x y : ℚ} (h : x ≤ y) : pyInt x ≤ pyInt y := by
  unfold pyInt
  by_cases hx : (0 : ℚ) ≤ x
  · rw [if_pos hx, if_pos (le_trans hx h)]
    exact Int.floor_le_floor h
  · by_cases hy : (0 : ℚ) ≤ y
    · rw [if_neg hx, if_pos hy]
      have h1 : ⌈x⌉ ≤ (0 : ℤ) := Int.ceil_le.mpr (by exact_mod_cast le_of_not_le hx)
      have h2 : (0 : ℤ) ≤ ⌊y⌋ := Int.floor_nonneg.mpr hy
      omega
    · rw [if_neg hx, if_neg hy]
      exact Int.ceil_le_ceil h

/-- The triple computed for one numeric column is ordered:
minimum ≤ median ≤ maximum, after truncation. -/
theorem columnRange_between (series : List ℚ) (mn mx md : ℤ)
    (h : columnRange series = some (mn, mx, md)) : mn ≤ md ∧ md ≤ mx := by
  unfold columnRange at h
  rcases h1 : seriesMin? series with _ | qmn
  · rw [h1] at h
    exact absurd h (by simp)
  rcases h2 : seriesMax? series with _ | qmx
  · rw [h1, h2] at h
    exact absurd h (by simp)
  rcases h3 : seriesMedian? series with _ | qmd
  · rw [h1, h2, h3] at h
    exact absurd h (by simp)
  rw [h1, h2, h3] at h
  simp only [Option.some.injEq, Prod.mk.injEq] at h
  obtain ⟨e1, e2, e3⟩ := h
  obtain ⟨l1, l2⟩ := seriesMedian?_between series qmn qmx qmd h1 h2 h3
  subst e1
  subst e2
  subst e3
  exact ⟨pyInt_mono l1, pyInt_mono l2⟩

/-- Claim C1: the single-row prediction record built before calling the
model has exactly the columns of `FEATURE_ORDER`, in that fixed order, and
each column holds the corresponding input unchanged; in particular the
inputs (3, 100, 2, 10, 2000, "high") give exactly the row
[3, 100, 2, 10, 2000, "high"]. -/
theorem prediction_record_contract :
    (∀ (calls cost prior disc weight : ℤ) (imp : String),
      (buildFeatures calls cost prior disc weight imp).columns = FEATURE_ORDER ∧
      (buildFeatures calls cost prior disc weight imp).row =
        [FeatureValue.intV calls, FeatureValue.intV cost,
         FeatureValue.intV prior, FeatureValue.intV disc,
         FeatureValue.intV weight, FeatureValue.strV imp]) ∧
    FEATURE_ORDER =
      ["Customer_care_calls", "Cost_of_the_Product", "Prior_purchases",
       "Discount_offered", "Weight_in_gms", "Product_importance"] ∧
    (buildFeatures 3 100 2 10 2000 "high").row =
      [FeatureValue.intV 3, FeatureValue.intV 100, FeatureValue.intV 2,
       FeatureValue.intV 10, FeatureValue.intV 2000,
       FeatureValue.strV "high"] :=
  ⟨fun _ _ _ _ _ _ => ⟨rfl, rfl⟩, rfl, rfl⟩

/-- Claim C2: the view reports "on-time" for raw prediction 1 and "late"
for raw prediction 0, by the fixed numeric convention `prediction_raw == 1`
of the source, in both directions. -/
theorem label_mapping_fixed :
    shipmentLabel 1 = "on-time" ∧ shipmentLabel 0 = "late" := by
  constructor <;> rfl

/-- Claim C10: the view labels a shipment "on-time" exactly when the raw
prediction equals 1; any other raw value — 0, 2, -1, or a non-integer such
as 1/2 — is labeled "late", since the code tests equality with 1. -/
theorem label_tests_equality_with_one :
    (∀ raw : ℚ, shipmentLabel raw = "on-time" ↔ raw = 1) ∧
    shipmentLabel 2 = "late" ∧ shipmentLabel (-1) = "late" ∧
    shipmentLabel (1 / 2) = "late" := by
  have late_of_ne : ∀ raw : ℚ, raw ≠ 1 → shipmentLabel raw = "late" := by
    intro raw hne
    have hb : is_on_time raw = false := beq_eq_false_iff_ne.mpr hne
    unfold shipmentLabel
    rw [hb]
    decide
  refine ⟨fun raw => ⟨fun h => ?_, fun h => by subst h; rfl⟩,
    late_of_ne 2 (by norm_num), late_of_ne (-1) (by norm_num),
    late_of_ne (1 / 2) (by norm_num)⟩
  by_contra hne
  rw [late_of_ne raw hne] at h
  exact absurd h (by decide)

/-- Claim C3: when the estimator exposes `predict_proba`, the reported
late-probability is element 0 and the on-time-probability element 1 of the
two-class vector (so [0.3, 0.7] reads late = 0.3, on-time = 0.7); when the
capability is absent both probabilities stay in the explicit `none` state,
never a fabricated value. -/
theorem probability_extraction_contract :
    (∀ (model : Model) (features : PredictionRecord) proba,
        model.predict_proba = some proba →
        extractProbs model features =
          (some (proba features).1, some (proba features).2)) ∧
    (∀ (model : Model) (features : PredictionRecord),
        model.predict_proba = none →
        extractProbs model features = (none, none)) ∧
    extractProbs probaModelW (buildFeatures 3 100 2 10 2000 "high") =
      (some (3 / 10), some (7 / 10)) ∧
    extractProbs classOnlyModelW (buildFeatures 3 100 2 10 2000 "high") =
      (none, none) := by
  refine ⟨?_, ?_, rfl, rfl⟩
  · intro model features proba h
    unfold extractProbs
    rw [h]
  · intro model features h
    unfold extractProbs
    rw [h]

/-- Claim C8: artifact resolution prefers the local path — when the local
file exists the model path is the local one and no remote fetch happens;
when it is absent exactly one remote fetch is attempted and its failure is
propagated unchanged (no retry). -/
theorem model_resolution_local_first :
    (∀ hub_download, load_model true hub_download =
        (Except.ok LOCAL_MODEL_PATH, 0)) ∧
    (∀ hub_download, load_model false hub_download = (hub_download, 1)) ∧
    (∀ msg, load_model false (Except.error msg) = (Except.error msg, 1)) :=
  ⟨fun _ => rfl, fun _ => rfl, fun _ => rfl⟩

/-- Claim C9: invoked without a reference dataset, the prediction view
fails with the configuration error before any bounds are computed; with a
dataset supplied, that error branch is unreachable (the result is either
the derived ranges or the unrelated empty-column failure). -/
theorem model_page_requires_reference :
    model_page none =
      Except.error "reference_data is required to build sensible input ranges" ∧
    (∀ data, (∃ ranges, model_page (some data) = Except.ok ranges) ∨
        model_page (some data) =
          Except.error "cannot convert float NaN to integer") := by
  constructor
  · rfl
  · intro data
    rcases h : get_feature_ranges data with _ | ranges
    · right
      simp [model_page, h]
    · left
      exact ⟨ranges, by simp [model_page, h]⟩

/-- Claim C6: for every reference dataset with the required numeric
columns, the feature-range derivation yields per feature an integer triple
(minimum, maximum, median), and for a feature with non-degenerate range the
triple satisfies minimum ≤ median ≤ maximum. -/
theorem feature_ranges_ordered (data : RefData)
    (ranges : List (String × (ℤ × ℤ × ℤ))) (name : String) (mn mx md : ℤ)
    (hr : get_feature_ranges data = some ranges)
    (hmem : (name, (mn, mx, md)) ∈ ranges) (hne : mn ≠ mx) :
    mn ≤ md ∧ md ≤ mx := by
  unfold get_feature_ranges at hr
  rcases c1 : columnRange data.customer_care_calls with _ | r1
  · rw [c1] at hr
    exact absurd hr (by simp)
  rcases c2 : columnRange data.cost_of_the_product with _ | r2
  · rw [c1, c2] at hr
    exact absurd hr (by simp)
  rcases c3 : columnRange data.prior_purchases with _ | r3
  · rw [c1, c2, c3] at hr
    exact absurd hr (by simp)
  rcases c4 : columnRange data.discount_offered with _ | r4
  · rw [c1, c2, c3, c4] at hr
    exact absurd hr (by simp)
  rcases c5 : columnRange data.weight_in_gms with _ | r5
  · rw [c1, c2, c3, c4, c5] at hr
    exact absurd hr (by simp)
  rw [c1, c2, c3, c4, c5] at hr
  simp only [Option.some.injEq] at hr
  subst hr
  simp only [List.mem_cons, List.not_mem_nil, or_false, Prod.mk.injEq] at hmem
  rcases hmem with ⟨_, ht⟩ | ⟨_, ht⟩ | ⟨_, ht⟩ | ⟨_, ht⟩ | ⟨_, ht⟩
  · subst ht
    exact columnRange_between _ mn mx md c1
  · subst ht
    exact columnRange_between _ mn mx md c2
  · subst ht
    exact columnRange_between _ mn mx md c3
  · subst ht
    exact columnRange_between _ mn mx md c4
  · subst ht
    exact columnRange_between _ mn mx md c5

/-- Witness for claim C6: the dataset `refDataW` yields the ranges
`rangesW`, the Customer_care_calls entry (1, 4, 2) has a non-degenerate
range, and its triple is ordered. -/
theorem feature_ranges_ordered_witness :
    (get_feature_ranges refDataW = some rangesW ∧
      ("Customer_care_calls", ((1 : ℤ), (4 : ℤ), (2 : ℤ))) ∈ rangesW ∧
      (1 : ℤ) ≠ 4) ∧ ((1 : ℤ) ≤ 2 ∧ (2 : ℤ) ≤ 4) :=
  ⟨⟨by decide, by decide, by decide⟩,
    feature_ranges_ordered refDataW rangesW "Customer_care_calls" 1 4 2
      (by decide) (by decide) (by decide)⟩

/-- Folding `min` over copies of the start value leaves it unchanged. -/
theorem foldl_min_replicate (j : ℕ) (v : ℚ) :
    (List.replicate j v).foldl min v = v := by
  induction j with
  | zero => rfl
  | succ n ih =>
    rw [List.replicate_succ, List.foldl_cons, min_self]
    exact ih

/-- Folding `max` over copies of the start value leaves it unchanged. -/
theorem foldl_max_replicate (j : ℕ) (v : ℚ) :
    (List.replicate j v).foldl max v = v := by
  induction j with
  | zero => rfl
  | succ n ih =>
    rw [List.replicate_succ, List.foldl_cons, max_self]
    exact ih

/-- The minimum of a constant nonempty column is its value. -/
theorem seriesMin?_replicate (k : ℕ) (v : ℚ) (hk : 0 < k) :
    seriesMin? (List.replicate k v) = some v := by
  cases k with
  | zero => exact absurd hk (by omega)
  | succ n =>
    rw [List.replicate_succ]
    simp only [seriesMin?, Option.some.injEq]
    exact foldl_min_replicate n v

/-- The maximum of a constant nonempty column is its value. -/
theorem seriesMax?_replicate (k : ℕ) (v : ℚ) (hk : 0 < k) :
    seriesMax? (List.replicate k v) = some v := by
  cases k with
  | zero => exact absurd hk (by omega)
  | succ n =>
    rw [List.replicate_succ]
    simp only [seriesMax?, Option.some.injEq]
    exact foldl_max_replicate n v

/-- The median of a constant nonempty column is its value. -/
theorem seriesMedian?_replicate (k : ℕ) (v : ℚ) (hk : 0 < k) :
    seriesMedian? (List.replicate k v) = some v := by
  have hlen : ((List.replicate k v).insertionSort (· ≤ ·)).length = k := by
    rw [List.length_insertionSort, List.length_replicate]
  have hval : ∀ (i : ℕ) (h : i < ((List.replicate k v).insertionSort (· ≤ ·)).length),
      ((List.replicate k v).insertionSort (· ≤ ·))[i] = v := by
    intro i h
    exact List.eq_of_mem_replicate
      ((List.mem_insertionSort _).mp (List.getElem_mem h))
  simp only [seriesMedian?, List.length_replicate]
  by_cases hpar : k % 2 = 1
  · rw [if_pos hpar]
    have hi : k / 2 < ((List.replicate k v).insertionSort (· ≤ ·)).length := by
      rw [hlen]
      exact Nat.div_lt_self hk (by omega)
    rw [List.getElem?_eq_getElem hi, hval (k / 2) hi]
  · rw [if_neg hpar]
    have hi1 : k / 2 - 1 < ((List.replicate k v).insertionSort (· ≤ ·)).length := by
      rw [hlen]
      omega
    have hi2 : k / 2 < ((List.replicate k v).insertionSort (· ≤ ·)).length := by
      rw [hlen]
      exact Nat.div_lt_self hk (by omega)
    rw [List.getElem?_eq_getElem hi1, List.getElem?_eq_getElem hi2,
      hval _ hi1, hval _ hi2]
    show some ((v + v) / 2) = some v
    congr 1
    ring

/-- Truncation toward zero of an integer value is that value. -/
theorem pyInt_intCast (v : ℤ) : pyInt (v : ℚ) = v := by
  unfold pyInt
  by_cases h : (0 : ℚ) ≤ (v : ℚ)
  · rw [if_pos h, Int.floor_intCast]
  · rw [if_neg h, Int.ceil_intCast]

/-- Claim C7: a numeric feature column whose observed values all equal a
single value v yields the degenerate triple (v, v, v) from the range
derivation, without raising. -/
theorem columnRange_constant (series : List ℚ) (v : ℤ)
    (hne : series ≠ []) (hall : ∀ x ∈ series, x = (v : ℚ)) :
    columnRange series = some (v, v, v) := by
  have hrep : series = List.replicate series.length (v : ℚ) :=
    List.eq_replicate_of_mem hall
  have hk : 0 < series.length := List.length_pos.mpr hne
  rw [hrep]
  unfold columnRange
  rw [seriesMin?_replicate _ _ hk, seriesMax?_replicate _ _ hk,
    seriesMedian?_replicate _ _ hk]
  simp only [Option.some.injEq]
  rw [pyInt_intCast]

/-- Witness for claim C7: the constant column [42, 42, 42] yields the
degenerate triple (42, 42, 42). -/
theorem columnRange_constant_witness :
    (([42, 42, 42] : List ℚ) ≠ [] ∧ (∀ x ∈ ([42, 42, 42] : List ℚ), x = ((42 : ℤ) : ℚ))) ∧
    columnRange [42, 42, 42] = some (42, 42, 42) :=
  ⟨⟨by decide, by norm_num⟩,
    columnRange_constant [42, 42, 42] 42 (by decide) (by norm_num)⟩

/-- Claim C5: on a series whose values are all identical, the binning
helper does not divide by zero or raise: it returns exactly one bin — the
±1-padded interval around the value, labeled with the value — and every
element of the series is assigned that single bin's label. -/
theorem binning_degenerate (series : List ℚ) (v : ℚ) (n_bins : ℕ)
    (hne : series ≠ []) (hall : ∀ x ∈ series, x = v) :
    make_numeric_bins series n_bins =
      some { labels := [fmtF0 v],
             assign := series.map (fun _ => some (fmtF0 v)) } := by
  have hrep : series = List.replicate series.length v :=
    List.eq_replicate_of_mem hall
  have hk : 0 < series.length := List.length_pos.mpr hne
  rw [hrep]
  simp only [make_numeric_bins, seriesMin?_replicate series.length v hk,
    seriesMax?_replicate series.length v hk, eq_self_iff_true, if_true,
    Option.some.injEq, BinResult.mk.injEq, true_and]
  apply List.map_congr_left
  intro x hx
  have hxv : x = v := List.eq_of_mem_replicate hx
  subst hxv
  rw [if_pos]
  constructor <;> linarith

/-- Witness for claim C5: the series [42, 42, 42] produces the single bin
labeled around 42 and every element lands in it. -/
theorem binning_degenerate_witness :
    (([42, 42, 42] : List ℚ) ≠ [] ∧
      (∀ x ∈ ([42, 42, 42] : List ℚ), x = (42 : ℚ))) ∧
    make_numeric_bins [42, 42, 42] 5 =
      some { labels := [fmtF0 42],
             assign := ([42, 42, 42] : List ℚ).map (fun _ => some (fmtF0 42)) } :=
  ⟨⟨by decide, by decide⟩,
    binning_degenerate [42, 42, 42] 42 5 (by decide) (by decide)⟩

/-- Linspace grid point, written with the per-bin width factored out. -/
theorem binEdge_eq (min_v max_v : ℚ) (n : ℕ) (i : ℕ) :
    binEdge min_v max_v n i = min_v + i * ((max_v - min_v) / n) := by
  unfold binEdge
  ring

/-- Grid points are monotone in the index when the range is increasing. -/
theorem binEdge_mono (min_v max_v : ℚ) (n : ℕ) (hn : 0 < n)
    (hlt : min_v < max_v) {i j : ℕ} (hij : i ≤ j) :
    binEdge min_v max_v n i ≤ binEdge min_v max_v n j := by
  rw [binEdge_eq, binEdge_eq]
  have hw : 0 < (max_v - min_v) / (n : ℚ) := by
    apply div_pos (by linarith)
    exact_mod_cast hn
  have hc : (i : ℚ) ≤ (j : ℚ) := by exact_mod_cast hij
  have := mul_le_mul_of_nonneg_right hc (le_of_lt hw)
  linarith

/-- Interval membership test of `pd.cut`, unfolded to its two cases. -/
theorem cutMem_true_iff (min_v max_v : ℚ) (n i : ℕ) (v : ℚ) :
    cutMem min_v max_v n i v = true ↔
      (i = 0 ∧ min_v ≤ v ∧ v ≤ binEdge min_v max_v n 1) ∨
      (i ≠ 0 ∧ binEdge min_v max_v n i < v ∧
        v ≤ binEdge min_v max_v n (i + 1)) := by
  unfold cutMem
  by_cases h : i = 0 <;> simp [h]

/-- A value in interval `i` is bounded by the interval's right edge. -/
theorem cutMem_le (min_v max_v : ℚ) (n i : ℕ) (v : ℚ)
    (h : cutMem min_v max_v n i v = true) :
    v ≤ binEdge min_v max_v n (i + 1) := by
  rcases (cutMem_true_iff min_v max_v n i v).mp h with ⟨h0, _, h2⟩ | ⟨_, _, h2⟩
  · subst h0
    exact h2
  · exact h2

/-- The `pd.cut` intervals are pairwise disjoint: a value belongs to at
most one. -/
theorem cutMem_unique (min_v max_v : ℚ) (n : ℕ) (hn : 0 < n)
    (hlt : min_v < max_v) (v : ℚ) (i j : ℕ)
    (hi : cutMem min_v max_v n i v = true)
    (hj : cutMem min_v max_v n j v = true) : i = j := by
  by_contra hne
  wlog h : i < j generalizing i j
  · exact this j i hj hi (Ne.symm hne) (by omega)
  have hj1 : binEdge min_v max_v n j < v := by
    rcases (cutMem_true_iff min_v max_v n j v).mp hj with ⟨h0, _, _⟩ | ⟨_, h1, _⟩
    · omega
    · exact h1
  have hv : v ≤ binEdge min_v max_v n (i + 1) := cutMem_le min_v max_v n i v hi
  have hmono : binEdge min_v max_v n (i + 1) ≤ binEdge min_v max_v n j :=
    binEdge_mono min_v max_v n hn hlt (by omega)
  linarith

/-- The `pd.cut` intervals with `include_lowest` cover the observed range:
every value between the endpoints belongs to some interval. -/
theorem cutMem_exists (min_v max_v : ℚ) (n : ℕ) (hn : 0 < n)
    (hlt : min_v < max_v) (v : ℚ) (h1 : min_v ≤ v) (h2 : v ≤ max_v) :
    ∃ i, i < n ∧ cutMem min_v max_v n i v = true := by
  have hw : 0 < (max_v - min_v) / (n : ℚ) := by
    apply div_pos (by linarith)
    exact_mod_cast hn
  set w : ℚ := (max_v - min_v) / (n : ℚ) with hwdef
  by_cases hv : v ≤ binEdge min_v max_v n 1
  · refine ⟨0, hn, ?_⟩
    rw [cutMem_true_iff]
    exact Or.inl ⟨rfl, h1, hv⟩
  · push_neg at hv
    have he1 : binEdge min_v max_v n 1 = min_v + w := by
      rw [binEdge_eq]
      push_cast
      ring
    set t : ℚ := (v - min_v) / w with htdef
    have ht1 : 1 < t := by
      rw [htdef, lt_div_iff₀ hw]
      rw [he1] at hv
      linarith
    have htn : t ≤ (n : ℚ) := by
      rw [htdef, div_le_iff₀ hw]
      have hnw : (n : ℚ) * w = max_v - min_v := by
        rw [hwdef]
        field_simp
      linarith
    have hceil1 : 1 < ⌈t⌉ := Int.lt_ceil.mpr (by exact_mod_cast ht1)
    have hceiln : ⌈t⌉ ≤ (n : ℤ) := Int.ceil_le.mpr (by exact_mod_cast htn)
    refine ⟨(⌈t⌉ - 1).toNat, by omega, ?_⟩
    rw [cutMem_true_iff]
    right
    have hcast : (((⌈t⌉ - 1).toNat : ℕ) : ℚ) = (⌈t⌉ : ℚ) - 1 := by
      have h' : (((⌈t⌉ - 1).toNat : ℕ) : ℤ) = ⌈t⌉ - 1 :=
        Int.toNat_of_nonneg (by omega)
      exact_mod_cast h'
    have hit : (((⌈t⌉ - 1).toNat : ℕ) : ℚ) < t := by
      rw [hcast]
      have hc := Int.ceil_lt_add_one t
      linarith
    have hti : t ≤ (((⌈t⌉ - 1).toNat : ℕ) : ℚ) + 1 := by
      rw [hcast]
      have hc := Int.le_ceil t
      linarith
    refine ⟨by omega, ?_, ?_⟩
    · rw [binEdge_eq]
      have h' := (lt_div_iff₀ hw).mp (htdef ▸ hit)
      linarith
    · rw [binEdge_eq]
      have h' := (div_le_iff₀ hw).mp (htdef ▸ hti)
      push_cast
      linarith

/-- The column minimum never exceeds the column maximum. -/
theorem seriesMin?_le_seriesMax? (xs : List ℚ) (mn mx : ℚ)
    (hmn : seriesMin? xs = some mn) (hmx : seriesMax? xs = some mx) :
    mn ≤ mx := by
  cases xs with
  | nil => simp [seriesMin?] at hmn
  | cons y ys =>
    have h1 := seriesMin?_le (y :: ys) mn hmn y (List.mem_cons_self y ys)
    have h2 := le_seriesMax? (y :: ys) mx hmx y (List.mem_cons_self y ys)
    linarith

/-- Grid points are strictly monotone in the index. -/
theorem binEdge_strictMono (min_v max_v : ℚ) (n : ℕ) (hn : 0 < n)
    (hlt : min_v < max_v) {i j : ℕ} (hij : i < j) :
    binEdge min_v max_v n i < binEdge min_v max_v n j := by
  rw [binEdge_eq, binEdge_eq]
  have hw : 0 < (max_v - min_v) / (n : ℚ) := by
    apply div_pos (by linarith)
    exact_mod_cast hn
  have hc : (i : ℚ) < (j : ℚ) := by exact_mod_cast hij
  have := mul_lt_mul_of_pos_right hc hw
  linarith

/-- Claim C4 (amended): on a series whose minimum differs from its maximum
and for a positive target bin count, the linspace grid forms exactly that
many equal-width, non-overlapping, right-closed intervals covering the
observed range — every series value falls in exactly one interval and a
label exists for its index, boundary grid points belong to the lower bin,
and the global minimum belongs to the first bin; the helper returns this
binning (every value assigned its one label) when the rounded low–high
labels are pairwise distinct, and raises pd.cut's duplicate-labels
ValueError (embedded `none`) when rounding makes two labels coincide. -/
theorem binning_partition (series : List ℚ) (n_bins : ℕ) (min_v max_v : ℚ)
    (hmn : seriesMin? series = some min_v)
    (hmx : seriesMax? series = some max_v)
    (hne : min_v ≠ max_v) (hpos : 0 < n_bins) :
    (¬ (binLabels min_v max_v n_bins).Nodup →
      make_numeric_bins series n_bins = none) ∧
    ((binLabels min_v max_v n_bins).Nodup →
      make_numeric_bins series n_bins =
        some { labels := binLabels min_v max_v n_bins,
               assign := series.map (fun v =>
                 (binIndex? min_v max_v n_bins v).bind
                   (fun i => (binLabels min_v max_v n_bins)[i]?)) }) ∧
    (binLabels min_v max_v n_bins).length = n_bins ∧
    (∀ i, i < n_bins →
      binEdge min_v max_v n_bins (i + 1) - binEdge min_v max_v n_bins i =
        (max_v - min_v) / n_bins) ∧
    (∀ v ∈ series, ∃! i, i < n_bins ∧ cutMem min_v max_v n_bins i v = true) ∧
    (∀ v ∈ series, ∃ i lab, binIndex? min_v max_v n_bins v = some i ∧
        (binLabels min_v max_v n_bins)[i]? = some lab) ∧
    cutMem min_v max_v n_bins 0 min_v = true ∧
    (∀ i, 0 < i → i ≤ n_bins →
      cutMem min_v max_v n_bins (i - 1) (binEdge min_v max_v n_bins i) = true) := by
  have hle : min_v ≤ max_v := seriesMin?_le_seriesMax? series min_v max_v hmn hmx
  have hlt : min_v < max_v := lt_of_le_of_ne hle hne
  have hw : 0 < (max_v - min_v) / (n_bins : ℚ) := by
    apply div_pos (by linarith)
    exact_mod_cast hpos
  refine ⟨?_, ?_, ?_, ?_, ?_, ?_, ?_, ?_⟩
  · intro h
    simp only [make_numeric_bins, hmn, hmx]
    rw [if_neg hne, if_neg h]
  · intro h
    simp only [make_numeric_bins, hmn, hmx]
    rw [if_neg hne, if_pos h]
  · simp [binLabels]
  · intro i _
    rw [binEdge_eq, binEdge_eq]
    push_cast
    ring
  · intro v hv
    have h1 := seriesMin?_le series min_v hmn v hv
    have h2 := le_seriesMax? series max_v hmx v hv
    obtain ⟨i, hi, hcut⟩ :=
      cutMem_exists min_v max_v n_bins hpos hlt v h1 h2
    refine ⟨i, ⟨hi, hcut⟩, ?_⟩
    rintro j ⟨_, hj⟩
    exact cutMem_unique min_v max_v n_bins hpos hlt v j i hj hcut
  · intro v hv
    have h1 := seriesMin?_le series min_v hmn v hv
    have h2 := le_seriesMax? series max_v hmx v hv
    obtain ⟨i, hi, hcut⟩ :=
      cutMem_exists min_v max_v n_bins hpos hlt v h1 h2
    have hsome : (binIndex? min_v max_v n_bins v).isSome := by
      unfold binIndex?
      rw [List.find?_isSome]
      exact ⟨i, List.mem_range.mpr hi, hcut⟩
    obtain ⟨i0, hi0⟩ := Option.isSome_iff_exists.mp hsome
    have hi0n : i0 < n_bins := by
      have hm := List.mem_of_find?_eq_some hi0
      exact List.mem_range.mp hm
    have hlen : i0 < (binLabels min_v max_v n_bins).length := by
      simpa [binLabels] using hi0n
    exact ⟨i0, (binLabels min_v max_v n_bins).get ⟨i0, hlen⟩, hi0,
      List.getElem?_eq_getElem hlen⟩
  · rw [cutMem_true_iff]
    left
    refine ⟨rfl, le_refl min_v, ?_⟩
    rw [binEdge_eq]
    push_cast
    linarith
  · intro i h0 hn
    by_cases hi1 : i = 1
    · subst hi1
      rw [cutMem_true_iff]
      left
      refine ⟨rfl, ?_, le_refl _⟩
      rw [binEdge_eq]
      push_cast
      linarith
    · rw [cutMem_true_iff]
      right
      have hs : i - 1 + 1 = i := by omega
      refine ⟨by omega, ?_, ?_⟩
      · exact binEdge_strictMono min_v max_v n_bins hpos hlt (by omega)
      · rw [hs]

/-- Witness for claim C4: the series [0, 10] with the default 5 bins has a
non-degenerate range, and every value of the series belongs to exactly one
of the five intervals. -/
theorem binning_partition_witness :
    (seriesMin? [0, 10] = some 0 ∧ seriesMax? [0, 10] = some 10 ∧
      ((0 : ℚ) ≠ 10) ∧ 0 < 5) ∧
    (∀ v ∈ ([0, 10] : List ℚ), ∃! i, i < 5 ∧ cutMem 0 10 5 i v = true) :=
  ⟨⟨by decide, by decide, by decide, by decide⟩,
    (binning_partition [0, 10] 5 0 10 (by decide) (by decide) (by decide)
      (by decide)).2.2.2.2.1⟩

/-- Computation of the rounded labels of the five bins over [0, 1]: the
grid is 0, 0.2, 0.4, 0.6, 0.8, 1 and rounding each edge with `"%.0f"`
makes the labels collide. -/
theorem binLabels_unit_five :
    binLabels 0 1 5 = ["0–0", "0–0", "0–1", "1–1", "1–1"] := by
  have e0 : binEdge 0 1 5 0 = 0 := by
    unfold binEdge
    norm_num
  have e1 : binEdge 0 1 5 1 = 1 / 5 := by
    unfold binEdge
    norm_num
  have e2 : binEdge 0 1 5 2 = 2 / 5 := by
    unfold binEdge
    norm_num
  have e3 : binEdge 0 1 5 3 = 3 / 5 := by
    unfold binEdge
    norm_num
  have e4 : binEdge 0 1 5 4 = 4 / 5 := by
    unfold binEdge
    norm_num
  have e5 : binEdge 0 1 5 5 = 1 := by
    unfold binEdge
    norm_num
  have r0 : fmtF0 0 = "0" := by
    have h : roundHalfEven 0 = 0 := by
      unfold roundHalfEven
      norm_num
    unfold fmtF0
    rw [h]
    rfl
  have r1 : fmtF0 (1 / 5) = "0" := by
    have h : roundHalfEven (1 / 5) = 0 := by
      unfold roundHalfEven
      norm_num
    unfold fmtF0
    rw [h]
    rfl
  have r2 : fmtF0 (2 / 5) = "0" := by
    have h : roundHalfEven (2 / 5) = 0 := by
      unfold roundHalfEven
      norm_num
    unfold fmtF0
    rw [h]
    rfl
  have r3 : fmtF0 (3 / 5) = "1" := by
    have h : roundHalfEven (3 / 5) = 1 := by
      unfold roundHalfEven
      norm_num
    unfold fmtF0
    rw [h]
    rfl
  have r4 : fmtF0 (4 / 5) = "1" := by
    have h : roundHalfEven (4 / 5) = 1 := by
      unfold roundHalfEven
      norm_num
    unfold fmtF0
    rw [h]
    rfl
  have r5 : fmtF0 1 = "1" := by
    have h : roundHalfEven 1 = 1 := by
      unfold roundHalfEven
      norm_num
    unfold fmtF0
    rw [h]
    rfl
  unfold binLabels
  rw [(by rfl : List.range 5 = [0, 1, 2, 3, 4])]
  simp only [List.map_cons, List.map_nil]
  norm_num [e0, e1, e2, e3, e4, e5, r0, r1, r2, r3, r4, r5]
  exact ⟨rfl, rfl, rfl⟩

/-- Counterexample to claim C4 as stated: the series [0, 1] has a
non-degenerate range and the default bin count 5 is positive, yet the
rounded labels collide ("0–0" appears twice), so `_make_numeric_bins`
raises pd.cut's duplicate-labels ValueError (embedded as `none`) and no
value of the series is assigned a bin label. -/
theorem binning_partition_counterexample :
    seriesMin? [0, 1] = some 0 ∧ seriesMax? [0, 1] = some 1 ∧
    ((0 : ℚ) ≠ 1) ∧ 0 < 5 ∧
    binLabels 0 1 5 = ["0–0", "0–0", "0–1", "1–1", "1–1"] ∧
    ¬ (binLabels 0 1 5).Nodup ∧
    make_numeric_bins [0, 1] 5 = none := by
  have hmn : seriesMin? [0, 1] = some 0 := by decide
  have hmx : seriesMax? [0, 1] = some 1 := by decide
  have hnd : ¬ (binLabels 0 1 5).Nodup := by
    rw [binLabels_unit_five]
    decide
  refine ⟨hmn, hmx, by norm_num, by decide, binLabels_unit_five, hnd, ?_⟩
  simp only [make_numeric_bins, hmn, hmx]
  rw [if_neg (by norm_num : ¬ (0 : ℚ) = 1), if_neg hnd]
